import Mathlib

/-!
Shallow embedding of the scheduling engine of the process-scheduling
repository (src/include/scheduler.h and src/src/scheduler.cpp).

Machine integers (C++ int) are modelled as Lean Int; none of the verified
claims depends on 32-bit overflow behaviour.  std::vector<Process> becomes
List Process.  The CPU slot is, as in the source, a list that the code keeps
at size 0 or 1.  std::sort with a strict comparator cmp is modelled by
List.insertionSort over the reflexive total order whose strict part is cmp:
std::sort only guarantees the result is a permutation of the input that is
sorted with respect to the comparator, and for the orders used here (key,
then id) any sorted permutation of lists with distinct ids is unique.
-/

/-- Process control block, from struct Process in scheduler.h lines 13-31. -/
structure Process where
  id : Int
  name : String
  arrivalTime : Int
  burstTime : Int
  priority : Int
  remainingTime : Int
  startTime : Int
  completionTime : Int
  waitingTime : Int
  turnaroundTime : Int
  responseTime : Int
  ageCounter : Int
  originalPriority : Int
deriving Repr, DecidableEq

/-- Scheduler state, from class Scheduler in scheduler.h lines 38-91.
The fields lastExecutedName and lastExecutedId declared in the header are
never read or written by the code in scheduler.cpp and are omitted. -/
structure Scheduler where
  algorithm : String
  agingEnabled : Bool
  timeQuantum : Int
  agingThreshold : Int
  currentTime : Int
  jobPool : List Process
  readyQueue : List Process
  finishedProcesses : List Process
  cpu : List Process
  currentQuantumUsed : Int
deriving Repr, DecidableEq

/-- Initial scheduler: in-class initializers of scheduler.h lines 58-61
plus the constructor Scheduler::Scheduler (scheduler.cpp lines 6-9). -/
def Scheduler.init : Scheduler :=
  { algorithm := "FCFS"
    agingEnabled := false
    timeQuantum := 2
    agingThreshold := 5
    currentTime := 0
    jobPool := []
    readyQueue := []
    finishedProcesses := []
    cpu := []
    currentQuantumUsed := 0 }

/-- Scheduler::addProcess (scheduler.cpp lines 11-24): build a fresh record
and push it to the back of the job pool.  The C++ leaves originalPriority
uninitialized; no verified claim reads it, and we set it to the submitted
priority. -/
def Scheduler.addProcess (s : Scheduler) (id : Int) (name : String)
    (arrivalTime burstTime priority : Int) : Scheduler :=
  let p : Process :=
    { id := id
      name := name
      arrivalTime := arrivalTime
      burstTime := burstTime
      priority := priority
      remainingTime := burstTime
      startTime := -1
      completionTime := -1
      waitingTime := 0
      turnaroundTime := 0
      responseTime := -1
      ageCounter := 0
      originalPriority := priority }
  { s with jobPool := s.jobPool ++ [p] }

/-- Scheduler::setAlgorithm (scheduler.cpp lines 26-28). -/
def Scheduler.setAlgorithm (s : Scheduler) (algo : String) : Scheduler :=
  { s with algorithm := algo }

/-- Scheduler::setTimeQuantum (scheduler.cpp lines 30-32): stores the value
unchanged, with no validation. -/
def Scheduler.setTimeQuantum (s : Scheduler) (q : Int) : Scheduler :=
  { s with timeQuantum := q }

/-- Scheduler::isFinished (scheduler.cpp lines 34-36). -/
def Scheduler.isFinished (s : Scheduler) : Bool :=
  s.jobPool.isEmpty && s.readyQueue.isEmpty && s.cpu.isEmpty

/-- Test used by Scheduler::checkArrivals: arrivalTime <= currentTime. -/
def arrivedB (t : Int) (p : Process) : Bool :=
  p.arrivalTime ≤ t

/-- Scheduler::checkArrivals (scheduler.cpp lines 38-53): the erase loop is
a stable partition; arrived processes are appended to the back of the ready
queue in job-pool order. -/
def Scheduler.checkArrivals (s : Scheduler) : Scheduler :=
  { s with
    jobPool := s.jobPool.filter (fun p => !(arrivedB s.currentTime p))
    readyQueue := s.readyQueue ++ s.jobPool.filter (arrivedB s.currentTime) }

/-- Scheduler::preemptCPU (scheduler.cpp lines 55-68): move the front CPU
process to the back of the ready queue and clear the CPU slot; both branches
of the C++ push to the back, so the Bool parameter is irrelevant. -/
def Scheduler.preemptCPU (s : Scheduler) (toBackOfQueue : Bool) : Scheduler :=
  match s.cpu with
  | [] => s
  | p :: _ =>
    let _ := toBackOfQueue
    { s with cpu := [], readyQueue := s.readyQueue ++ [p] }

/-- Round-Robin quantum-expiry block of Scheduler::tick (scheduler.cpp lines
74-145): if the algorithm is RR and the CPU slot is occupied, increment the
quantum counter; if it has reached the quantum and the running process still
has remaining time, preempt it to the back of the ready queue and reset the
counter. -/
def Scheduler.rrExpiryPhase (s : Scheduler) : Scheduler × String :=
  if s.algorithm = "RR" then
    match s.cpu with
    | [] => (s, "")
    | p :: _ =>
      let s1 := { s with currentQuantumUsed := s.currentQuantumUsed + 1 }
      if s1.currentQuantumUsed ≥ s1.timeQuantum ∧ p.remainingTime > 0 then
        ({ s1.preemptCPU true with currentQuantumUsed := 0 },
          "Process " ++ toString p.id ++ " quantum expired. ")
      else (s1, "")
  else (s, "")

/-- Comparator of the SRTF min_element and sort lambdas (scheduler.cpp lines
172-176 and 202-205): remainingTime ascending, ties by id. -/
def cmpSRTF (a b : Process) : Bool :=
  if a.remainingTime ≠ b.remainingTime then a.remainingTime < b.remainingTime
  else a.id < b.id

/-- Comparator of the SJF sort lambda (scheduler.cpp lines 196-199):
burstTime ascending, ties by id. -/
def cmpSJF (a b : Process) : Bool :=
  if a.burstTime ≠ b.burstTime then a.burstTime < b.burstTime
  else a.id < b.id

/-- Comparator of the Priority sort lambda (scheduler.cpp lines 208-211):
priority ascending, ties by id. -/
def cmpPrio (a b : Process) : Bool :=
  if a.priority ≠ b.priority then a.priority < b.priority
  else a.id < b.id

/-- std::min_element over a scanned prefix: keep the current best, replace
it only when the comparator says the new element is strictly smaller, so the
first minimum wins. -/
def minElemBy (lt : Process → Process → Bool) : Process → List Process → Process
  | best, [] => best
  | best, x :: xs => minElemBy lt (if lt x best then x else best) xs

/-- SRTF preemption block of Scheduler::tick (scheduler.cpp lines 170-183):
if some ready process has strictly smaller remainingTime than the running
one, preempt the running process to the back of the ready queue. -/
def Scheduler.srtfPreemptPhase (s : Scheduler) : Scheduler × String :=
  if s.algorithm = "SRTF" then
    match s.cpu, s.readyQueue with
    | p :: _, q :: qs =>
      let shortest := minElemBy cmpSRTF q qs
      if shortest.remainingTime < p.remainingTime then
        (s.preemptCPU true,
          "Process " ++ toString p.id ++ " preempted by "
            ++ toString shortest.id ++ ". ")
      else (s, "")
    | _, _ => (s, "")
  else (s, "")

/-- Reflexive total order whose strict part is cmpSJF. -/
def leSJF (a b : Process) : Prop :=
  a.burstTime < b.burstTime ∨ (a.burstTime = b.burstTime ∧ a.id ≤ b.id)

/-- Reflexive total order whose strict part is cmpSRTF. -/
def leSRTF (a b : Process) : Prop :=
  a.remainingTime < b.remainingTime
    ∨ (a.remainingTime = b.remainingTime ∧ a.id ≤ b.id)

/-- Reflexive total order whose strict part is cmpPrio. -/
def lePrio (a b : Process) : Prop :=
  a.priority < b.priority ∨ (a.priority = b.priority ∧ a.id ≤ b.id)

instance : DecidableRel leSJF := fun a b => by unfold leSJF; infer_instance
instance : DecidableRel leSRTF := fun a b => by unfold leSRTF; infer_instance
instance : DecidableRel lePrio := fun a b => by unfold lePrio; infer_instance

instance : IsTotal Process leSJF :=
  ⟨fun a b => by unfold leSJF; omega⟩
instance : IsTrans Process leSJF :=
  ⟨fun a b c h1 h2 => by unfold leSJF at *; omega⟩
instance : IsTotal Process leSRTF :=
  ⟨fun a b => by unfold leSRTF; omega⟩
instance : IsTrans Process leSRTF :=
  ⟨fun a b c h1 h2 => by unfold leSRTF at *; omega⟩
instance : IsTotal Process lePrio :=
  ⟨fun a b => by unfold lePrio; omega⟩
instance : IsTrans Process lePrio :=
  ⟨fun a b c h1 h2 => by unfold lePrio at *; omega⟩

/-- Ready-queue ordering used by the dispatch block (scheduler.cpp lines
191-212): FCFS and RR keep insertion order; SJF, SRTF and Priority resort;
any other algorithm string (including PriorityNP, which the code never
tests for) keeps insertion order. -/
def Scheduler.sortReady (s : Scheduler) : List Process :=
  if s.algorithm = "SJF" then List.insertionSort leSJF s.readyQueue
  else if s.algorithm = "SRTF" then List.insertionSort leSRTF s.readyQueue
  else if s.algorithm = "Priority" then List.insertionSort lePrio s.readyQueue
  else s.readyQueue

/-- Dispatch block of Scheduler::tick (scheduler.cpp lines 189-224): when
the CPU slot is empty and the ready queue is not, sort the ready queue per
the algorithm, move its front to the CPU slot, reset the quantum counter,
and record startTime on first dispatch.  The inner empty match arm is
unreachable because sorting preserves length. -/
def Scheduler.dispatchPhase (s : Scheduler) : Scheduler × String :=
  match s.cpu, s.readyQueue with
  | [], _ :: _ =>
    match s.sortReady with
    | [] => (s, "")
    | p :: rest =>
      let p1 := if p.startTime = -1 then { p with startTime := s.currentTime } else p
      ({ s with cpu := [p1], readyQueue := rest, currentQuantumUsed := 0 },
        "Process " ++ toString p1.id ++ " starts/resumes. ")
  | _, _ => (s, "")

/-- Execution block of Scheduler::tick (scheduler.cpp lines 227-254): if the
CPU slot is occupied, decrement its remainingTime, increment waitingTime of
every ready process, and on completion stamp completionTime and
turnaroundTime, append to the finished list and clear the slot; otherwise
log Idle. -/
def Scheduler.executionPhase (s : Scheduler) : Scheduler × String :=
  match s.cpu with
  | [] => (s, "Idle.")
  | p :: rest =>
    let p1 := { p with remainingTime := p.remainingTime - 1 }
    let ready1 := s.readyQueue.map (fun q => { q with waitingTime := q.waitingTime + 1 })
    let log1 := "Running Process " ++ toString p1.id ++ " ("
      ++ toString p1.remainingTime ++ " left)."
    if p1.remainingTime ≤ 0 then
      let p2 := { p1 with
        completionTime := s.currentTime + 1
        turnaroundTime := s.currentTime + 1 - p1.arrivalTime }
      ({ s with
          cpu := []
          readyQueue := ready1
          finishedProcesses := s.finishedProcesses ++ [p2]
          currentQuantumUsed := 0 },
        log1 ++ " Process " ++ toString p2.id ++ " finished.")
    else
      ({ s with cpu := p1 :: rest, readyQueue := ready1 }, log1)

/-- Scheduler::tick (scheduler.cpp lines 70-258): RR quantum expiry, then
arrivals, then SRTF preemption, then dispatch, then execution, then advance
currentTime by one; the returned string is the concatenated trace. -/
def Scheduler.tick (s : Scheduler) : Scheduler × String :=
  let r1 := s.rrExpiryPhase
  let s2 := r1.1.checkArrivals
  let r3 := s2.srtfPreemptPhase
  let r4 := r3.1.dispatchPhase
  let r5 := r4.1.executionPhase
  ({ r5.1 with currentTime := r5.1.currentTime + 1 },
    "Time " ++ toString s.currentTime ++ ": " ++ r1.2 ++ r3.2 ++ r4.2 ++ r5.2)

/-- State of the tick after its RR, arrival, SRTF and dispatch blocks have
run, immediately before the execution block. -/
def Scheduler.preExecState (s : Scheduler) : Scheduler :=
  ((((s.rrExpiryPhase).1.checkArrivals).srtfPreemptPhase).1.dispatchPhase).1

/-- Modelled from the spec: per-process aging update (spec section 4.1 step
5).  The aging mechanism (Scheduler::setAging, Scheduler::setAgingThreshold,
Scheduler::applyAging) is declared in scheduler.h lines 46-47 and 82 and is
invoked by tests/test_runner.cpp and src/wasm_main.cpp, but its definition
is not among the sources under src/.  Per the spec: increment ageCounter;
when it reaches the threshold, decrement priority by one, floored at 0, and
reset ageCounter. -/
def agingStep (threshold : Int) (p : Process) : Process :=
  if p.ageCounter + 1 ≥ threshold then
    { p with ageCounter := 0, priority := max (p.priority - 1) 0 }
  else { p with ageCounter := p.ageCounter + 1 }

/-- Modelled from the spec: the aging phase (spec section 4.1 step 5) runs
only when aging is enabled and the ready pool is non-empty, and applies
agingStep to every ready process; it touches neither the CPU slot nor the
job pool. -/
def Scheduler.applyAging (s : Scheduler) : Scheduler :=
  if s.agingEnabled ∧ s.readyQueue ≠ [] then
    { s with readyQueue := s.readyQueue.map (agingStep s.agingThreshold) }
  else s

/-- Modelled from the spec: Scheduler::setAging (scheduler.h line 46,
definition missing under src/). -/
def Scheduler.setAging (s : Scheduler) (enabled : Bool) : Scheduler :=
  { s with agingEnabled := enabled }

/-- Modelled from the spec: Scheduler::setAgingThreshold (scheduler.h line
47, definition missing under src/). -/
def Scheduler.setAgingThreshold (s : Scheduler) (threshold : Int) : Scheduler :=
  { s with agingThreshold := threshold }

/-- Concatenation of the four pools, in declaration order of scheduler.h
lines 65-70: job pool, ready queue, CPU slot, finished list (the CPU slot
list sits third in allProcs although it is declared after
finishedProcesses; the order is irrelevant for multiset statements). -/
def Scheduler.allProcs (s : Scheduler) : List Process :=
  s.jobPool ++ s.readyQueue ++ s.cpu ++ s.finishedProcesses

/-- Multiset of the ids of every process in the four pools; process
records mutate as they move, but their ids are stable, so conservation is
stated on ids. -/
def Scheduler.idMultiset (s : Scheduler) : Multiset Int :=
  ((s.allProcs).map Process.id : List Int)

/-- Arguments of one Scheduler::addProcess call. -/
structure Submission where
  id : Int
  name : String
  arrivalTime : Int
  burstTime : Int
  priority : Int
deriving Repr, DecidableEq

/-- States reachable from the fresh scheduler by any interleaving of
addProcess, tick and the configuration setters, indexed by the list of
submissions made so far. -/
inductive Reachable : List Submission → Scheduler → Prop
  | init : Reachable [] Scheduler.init
  | add (subs : List Submission) (s : Scheduler) (sub : Submission) :
      Reachable subs s →
      Reachable (subs ++ [sub])
        (s.addProcess sub.id sub.name sub.arrivalTime sub.burstTime sub.priority)
  | step (subs : List Submission) (s : Scheduler) :
      Reachable subs s → Reachable subs (s.tick).1
  | setAlg (subs : List Submission) (s : Scheduler) (a : String) :
      Reachable subs s → Reachable subs (s.setAlgorithm a)
  | setQ (subs : List Submission) (s : Scheduler) (q : Int) :
      Reachable subs s → Reachable subs (s.setTimeQuantum q)
  | setAg (subs : List Submission) (s : Scheduler) (b : Bool) :
      Reachable subs s → Reachable subs (s.setAging b)
  | setAgT (subs : List Submission) (s : Scheduler) (th : Int) :
      Reachable subs s → Reachable subs (s.setAgingThreshold th)

/-- States reachable using only valid submissions, in the sense of the spec
configuration contract: a process is submitted no later than its arrival
tick, and burst times are positive. -/
inductive ReachableV : Scheduler → Prop
  | init : ReachableV Scheduler.init
  | add (s : Scheduler) (id : Int) (name : String) (a b pr : Int) :
      ReachableV s → s.currentTime ≤ a → 1 ≤ b →
      ReachableV (s.addProcess id name a b pr)
  | step (s : Scheduler) : ReachableV s → ReachableV (s.tick).1
  | setAlg (s : Scheduler) (algo : String) :
      ReachableV s → ReachableV (s.setAlgorithm algo)
  | setQ (s : Scheduler) (q : Int) :
      ReachableV s → ReachableV (s.setTimeQuantum q)
  | setAg (s : Scheduler) (b : Bool) :
      ReachableV s → ReachableV (s.setAging b)
  | setAgT (s : Scheduler) (th : Int) :
      ReachableV s → ReachableV (s.setAgingThreshold th)

/-- Bookkeeping invariant of a process sitting in the ready queue or the
CPU slot at current time T: it still needs at least one unit, and its
accumulated waiting time plus consumed CPU time accounts for the whole
interval since arrival. -/
def PoolInv (T : Int) (p : Process) : Prop :=
  1 ≤ p.remainingTime ∧
  p.waitingTime + (p.burstTime - p.remainingTime) = T - p.arrivalTime

/-- Bookkeeping invariant of a finished process: both timing identities of
the spec testable-properties section. -/
def FinInv (p : Process) : Prop :=
  p.turnaroundTime = p.completionTime - p.arrivalTime ∧
  p.turnaroundTime = p.waitingTime + p.burstTime

/-- Bookkeeping invariant of a process still in the job pool at current
time T. -/
def JobInv (T : Int) (p : Process) : Prop :=
  T ≤ p.arrivalTime ∧ p.remainingTime = p.burstTime ∧
  p.waitingTime = 0 ∧ 1 ≤ p.burstTime

/-- Full bookkeeping invariant of a scheduler state. -/
def InvV (s : Scheduler) : Prop :=
  s.cpu.length ≤ 1 ∧
  (∀ p ∈ s.jobPool, JobInv s.currentTime p) ∧
  (∀ p ∈ s.readyQueue, PoolInv s.currentTime p) ∧
  (∀ p ∈ s.cpu, PoolInv s.currentTime p) ∧
  (∀ p ∈ s.finishedProcesses, FinInv p)

/-- Priority workload: P1 (priority 5) arrives at 0, P2 (priority 1) at 1. -/
def c1State : Scheduler :=
  ((Scheduler.init.setAlgorithm "Priority").addProcess 1 "P1" 0 3 5).addProcess 2 "P2" 1 3 1

/-- SJF workload whose ready pool holds, at time 2, two processes of equal
burst whose id order is opposite to their arrival order. -/
def c3State : Scheduler :=
  (((Scheduler.init.setAlgorithm "SJF").addProcess 2 "A" 0 5 0).addProcess 3 "B" 0 2 0).addProcess
    1 "C" 1 5 0

/-- Single FCFS process used to inspect startTime and responseTime after the
first dispatch. -/
def c7State : Scheduler :=
  Scheduler.init.addProcess 1 "P1" 0 2 0

/-- Running process for the RR quantum-expiry scenario. -/
def c5Proc : Process :=
  { id := 1
    name := "P1"
    arrivalTime := 0
    burstTime := 5
    priority := 0
    remainingTime := 3
    startTime := 0
    completionTime := -1
    waitingTime := 0
    turnaroundTime := 0
    responseTime := -1
    ageCounter := 0
    originalPriority := 0 }

/-- Same-tick arrival for the RR quantum-expiry scenario. -/
def c5Arr : Process :=
  { id := 2
    name := "P2"
    arrivalTime := 2
    burstTime := 4
    priority := 0
    remainingTime := 4
    startTime := -1
    completionTime := -1
    waitingTime := 0
    turnaroundTime := 0
    responseTime := -1
    ageCounter := 0
    originalPriority := 0 }

/-- RR state at time 2 with an expired quantum and a same-tick arrival. -/
def c5State : Scheduler :=
  { Scheduler.init with
    algorithm := "RR"
    currentTime := 2
    timeQuantum := 2
    currentQuantumUsed := 2
    cpu := [c5Proc]
    jobPool := [c5Arr] }

/-- Ready process used in the aging witness. -/
def c2Proc : Process :=
  { id := 7
    name := "W"
    arrivalTime := 0
    burstTime := 9
    priority := 10
    remainingTime := 9
    startTime := -1
    completionTime := -1
    waitingTime := 0
    turnaroundTime := 0
    responseTime := -1
    ageCounter := 0
    originalPriority := 10 }

/-- Aging-enabled state with one ready process. -/
def c2State : Scheduler :=
  { Scheduler.init with agingEnabled := true, readyQueue := [c2Proc] }

/-- State reached by submitting one valid process and ticking twice; its
only process has finished. -/
def c4State : Scheduler :=
  (((Scheduler.init.addProcess 1 "P1" 0 2 0).tick).1.tick).1

/-- Submission list matching c4State. -/
def c4Subs : List Submission :=
  [{ id := 1, name := "P1", arrivalTime := 0, burstTime := 2, priority := 0 }]

/-- SJF state with an empty CPU slot and two ready processes, for the
amended dispatch-order claim. -/
def c3wState : Scheduler :=
  { Scheduler.init with
    algorithm := "SJF"
    currentTime := 4
    readyQueue := [c5Arr, c5Proc] }

/-- C1: the code contains no Priority preemption: with the Priority policy,
after the tick at time 1 the CPU slot still holds process 1 (priority 5)
while process 2 (priority 1), strictly more urgent, sits in the ready pool;
the tick block for Priority (scheduler.cpp lines 185-188) deliberately
never preempts, contradicting scheduler.h and the test suite, which the
claim follows. -/
theorem priority_preemptive_not_implemented :
    ((((c1State.tick).1.tick).1.cpu.map (fun p => (p.id, p.priority)) = [(1, 5)]) ∧
      (((c1State.tick).1.tick).1.readyQueue.map (fun p => (p.id, p.priority)) = [(2, 1)])) := by
  decide

/-- C7: on the first dispatch of a process the code records startTime (here
0) but never records responseTime, which keeps its sentinel value -1
instead of currentTime - arrivalTime = 0 as the claim states. -/
theorem responseTime_never_recorded :
    ((c7State.tick).1.cpu.map (fun p => (p.id, p.startTime, p.responseTime)) = [(1, 0, -1)]) := by
  decide

/-- C8 counterexample: on the fresh scheduler isFinished already holds, yet
tick is not a no-op: it changes the state (currentTime increments) and its
trace reads Idle rather than any already-finished indication. -/
theorem tick_after_finished_counterexample :
    Scheduler.init.isFinished = true ∧
    (Scheduler.init.tick).1 ≠ Scheduler.init ∧
    (Scheduler.init.tick).1.currentTime = 1 ∧
    (Scheduler.init.tick).2 = "Time 0: Idle." := by
  decide

/-- C9 counterexample: setTimeQuantum stores a non-positive value verbatim:
it is neither rejected (the previous value 2 is overwritten) nor clamped
to 1. -/
theorem quantum_not_clamped_counterexample :
    (Scheduler.init.setTimeQuantum 0).timeQuantum = 0 ∧
    Scheduler.init.timeQuantum = 2 := by
  decide

/-- C3 counterexample: under SJF at time 2 the ready pool holds process 2
(arrival 0) and process 1 (arrival 1) with equal burst 5; the claim says
the arrivalTime tie-break dispatches process 2, but the code breaks the tie
by id only and dispatches process 1. -/
theorem dispatch_tiebreak_counterexample :
    (((c3State.tick).1.tick).1.cpu = [] ∧
      ((c3State.tick).1.tick).1.readyQueue.map
        (fun p => (p.id, p.arrivalTime, p.burstTime)) = [(2, 0, 5), (1, 1, 5)] ∧
      ((((c3State.tick).1.tick).1.tick).1.cpu.map Process.id = [1])) := by
  decide

/-- C8 (amended): after isFinished holds, tick leaves every pool and the
quantum counter unchanged and cannot crash, but it is not a no-op: it still
increments currentTime by 1, and its trace is the ordinary idle line, with
no dedicated already-finished indication. -/
theorem tick_after_finished_amended (s : Scheduler) (h : s.isFinished = true) :
    (s.tick).1.jobPool = s.jobPool ∧
    (s.tick).1.readyQueue = s.readyQueue ∧
    (s.tick).1.cpu = s.cpu ∧
    (s.tick).1.finishedProcesses = s.finishedProcesses ∧
    (s.tick).1.currentQuantumUsed = s.currentQuantumUsed ∧
    (s.tick).1.currentTime = s.currentTime + 1 ∧
    (s.tick).2 = "Time " ++ toString s.currentTime ++ ": " ++ "Idle." := by
  obtain ⟨⟨h1, h2⟩, h3⟩ : (s.jobPool = [] ∧ s.readyQueue = []) ∧ s.cpu = [] := by
    simpa [Scheduler.isFinished, Bool.and_eq_true, List.isEmpty_iff] using h
  simp [Scheduler.tick, Scheduler.rrExpiryPhase, Scheduler.checkArrivals,
    Scheduler.srtfPreemptPhase, Scheduler.dispatchPhase, Scheduler.executionPhase,
    h1, h2, h3]

/-- C8 witness: the amended statement evaluated on the fresh scheduler. -/
theorem tick_after_finished_amended_witness :
    Scheduler.init.isFinished = true ∧
    ((Scheduler.init.tick).1.jobPool = Scheduler.init.jobPool ∧
      (Scheduler.init.tick).1.readyQueue = Scheduler.init.readyQueue ∧
      (Scheduler.init.tick).1.cpu = Scheduler.init.cpu ∧
      (Scheduler.init.tick).1.finishedProcesses = Scheduler.init.finishedProcesses ∧
      (Scheduler.init.tick).1.currentQuantumUsed = Scheduler.init.currentQuantumUsed ∧
      (Scheduler.init.tick).1.currentTime = Scheduler.init.currentTime + 1 ∧
      (Scheduler.init.tick).2 = "Time " ++ toString Scheduler.init.currentTime ++ ": " ++ "Idle.") :=
  ⟨by decide, tick_after_finished_amended Scheduler.init (by decide)⟩

/-- Sorting the ready queue permutes it. -/
theorem sortReady_perm (s : Scheduler) : (s.sortReady).Perm s.readyQueue := by
  unfold Scheduler.sortReady
  repeat' split
  all_goals first
    | exact List.perm_insertionSort _ _
    | exact List.Perm.refl _

/-- After the dispatch block, the CPU slot is occupied unless the ready
queue is empty. -/
theorem dispatch_cpu_or_ready (s : Scheduler) :
    (s.dispatchPhase).1.cpu ≠ [] ∨ (s.dispatchPhase).1.readyQueue = [] := by
  rcases hc : s.cpu with _ | ⟨c, cs⟩
  · rcases hr : s.readyQueue with _ | ⟨q, qs⟩
    · right
      simp [Scheduler.dispatchPhase, hc, hr]
    · rcases hs : s.sortReady with _ | ⟨p, rest⟩
      · have hperm := sortReady_perm s
        rw [hs, hr] at hperm
        exact absurd hperm.length_eq (by simp)
      · left
        simp [Scheduler.dispatchPhase, hc, hr, hs]
  · left
    rcases hr : s.readyQueue with _ | ⟨q, qs⟩ <;> simp [Scheduler.dispatchPhase, hc, hr]

/-- C10: the tick is work-conserving: when the execution block begins, the
CPU slot can only be empty if the ready queue is empty, so a tick reports
idle only when nothing is ready; and exactly when the slot is occupied,
every ready process has its waitingTime incremented this tick.  The final
conjunct records that tick is precisely the execution block applied to
preExecState followed by the time increment. -/
theorem work_conserving_tick (s : Scheduler) :
    ((s.preExecState).cpu = [] → (s.preExecState).readyQueue = []) ∧
    ((s.preExecState).executionPhase.1.readyQueue =
      if (s.preExecState).cpu = [] then (s.preExecState).readyQueue
      else (s.preExecState).readyQueue.map
        (fun q => { q with waitingTime := q.waitingTime + 1 })) ∧
    (s.tick).1 = { (s.preExecState).executionPhase.1 with
      currentTime := (s.preExecState).executionPhase.1.currentTime + 1 } := by
  refine ⟨?_, ?_, rfl⟩
  · intro h
    rcases dispatch_cpu_or_ready ((((s.rrExpiryPhase).1.checkArrivals).srtfPreemptPhase).1) with h1 | h1
    · exact absurd h h1
    · exact h1
  · rcases hc : (s.preExecState).cpu with _ | ⟨p, rest⟩
    · simp [Scheduler.executionPhase, hc]
    · simp only [Scheduler.executionPhase, hc]
      split <;> simp

/-- C10 witness: the work-conserving statement evaluated on the SJF
workload state. -/
theorem work_conserving_tick_witness :
    ((c3State.preExecState).cpu = [] → (c3State.preExecState).readyQueue = []) ∧
    ((c3State.preExecState).executionPhase.1.readyQueue =
      if (c3State.preExecState).cpu = [] then (c3State.preExecState).readyQueue
      else (c3State.preExecState).readyQueue.map
        (fun q => { q with waitingTime := q.waitingTime + 1 })) ∧
    (c3State.tick).1 = { (c3State.preExecState).executionPhase.1 with
      currentTime := (c3State.preExecState).executionPhase.1.currentTime + 1 } :=
  work_conserving_tick c3State

/-- Head of an insertion sort is below every element of the input, for any
total transitive order. -/
theorem sorted_head_min {r : Process → Process → Prop} [DecidableRel r]
    [IsTotal Process r] [IsTrans Process r] (l : List Process) (p : Process)
    (rest : List Process) (h : List.insertionSort r l = p :: rest) :
    ∀ q ∈ l, r p q := by
  intro q hq
  have hs : List.Sorted r (p :: rest) := h ▸ List.sorted_insertionSort r l
  have hperm : (p :: rest).Perm l := h ▸ List.perm_insertionSort r l
  have hq2 : q ∈ p :: rest := hperm.mem_iff.2 hq
  rcases List.mem_cons.1 hq2 with rfl | hq3
  · rcases IsTotal.total (r := r) q q with h1 | h1 <;> exact h1
  · exact List.rel_of_sorted_cons hs q hq3

/-- C3 (amended): when the dispatch block runs, the dispatched process is
minimal in the ready pool under burstTime (SJF), remainingTime (SRTF) or
priority (Priority) with ties broken by id ascending only — arrivalTime is
not consulted — while FCFS, RR and every unrecognized policy string
(including PriorityNP) dispatch the front of the ready pool in insertion
order. -/
theorem dispatch_order_amended (s : Scheduler) (hcpu : s.cpu = [])
    (hne : s.readyQueue ≠ []) :
    ∃ p, (s.dispatchPhase).1.cpu = [p] ∧
      (s.algorithm = "SJF" → ∀ q ∈ s.readyQueue,
        p.burstTime < q.burstTime ∨ (p.burstTime = q.burstTime ∧ p.id ≤ q.id)) ∧
      (s.algorithm = "SRTF" → ∀ q ∈ s.readyQueue,
        p.remainingTime < q.remainingTime
          ∨ (p.remainingTime = q.remainingTime ∧ p.id ≤ q.id)) ∧
      (s.algorithm = "Priority" → ∀ q ∈ s.readyQueue,
        p.priority < q.priority ∨ (p.priority = q.priority ∧ p.id ≤ q.id)) ∧
      (s.algorithm ≠ "SJF" → s.algorithm ≠ "SRTF" → s.algorithm ≠ "Priority" →
        ∀ h2 : s.readyQueue ≠ [], p.id = (s.readyQueue.head h2).id ∧
          p.arrivalTime = (s.readyQueue.head h2).arrivalTime) := by
  rcases hr : s.readyQueue with _ | ⟨q0, qs⟩
  · exact absurd hr hne
  rcases hsort : s.sortReady with _ | ⟨h0, rest⟩
  · have hperm := sortReady_perm s
    rw [hsort, hr] at hperm
    exact absurd hperm.length_eq (by simp)
  refine ⟨if h0.startTime = -1 then { h0 with startTime := s.currentTime } else h0, ?_, ?_, ?_, ?_, ?_⟩
  · simp only [Scheduler.dispatchPhase, hcpu, hr, hsort]
  · intro halg q hq
    have hmin : ∀ x ∈ s.readyQueue, leSJF h0 x := by
      have : List.insertionSort leSJF s.readyQueue = h0 :: rest := by
        simpa [Scheduler.sortReady, halg] using hsort
      exact sorted_head_min _ _ _ this
    have := hmin q (by rw [hr]; exact hq)
    unfold leSJF at this
    split <;> simpa using this
  · intro halg q hq
    have hmin : ∀ x ∈ s.readyQueue, leSRTF h0 x := by
      have : List.insertionSort leSRTF s.readyQueue = h0 :: rest := by
        simpa [Scheduler.sortReady, halg] using hsort
      exact sorted_head_min _ _ _ this
    have := hmin q (by rw [hr]; exact hq)
    unfold leSRTF at this
    split <;> simpa using this
  · intro halg q hq
    have hmin : ∀ x ∈ s.readyQueue, lePrio h0 x := by
      have : List.insertionSort lePrio s.readyQueue = h0 :: rest := by
        simpa [Scheduler.sortReady, halg] using hsort
      exact sorted_head_min _ _ _ this
    have := hmin q (by rw [hr]; exact hq)
    unfold lePrio at this
    split <;> simpa using this
  · intro h1 h2 h3 h4
    have hid : s.sortReady = s.readyQueue := by
      simp [Scheduler.sortReady, h1, h2, h3]
    rw [hid, hr] at hsort
    injection hsort with hh1 hh2
    subst hh1
    rw [List.head_cons]
    split <;> simp

/-- C3 witness: the amended dispatch-order statement evaluated on an SJF
state with an empty CPU slot and two ready processes. -/
theorem dispatch_order_amended_witness :
    ∃ p, (c3wState.dispatchPhase).1.cpu = [p] ∧
      (c3wState.algorithm = "SJF" → ∀ q ∈ c3wState.readyQueue,
        p.burstTime < q.burstTime ∨ (p.burstTime = q.burstTime ∧ p.id ≤ q.id)) ∧
      (c3wState.algorithm = "SRTF" → ∀ q ∈ c3wState.readyQueue,
        p.remainingTime < q.remainingTime
          ∨ (p.remainingTime = q.remainingTime ∧ p.id ≤ q.id)) ∧
      (c3wState.algorithm = "Priority" → ∀ q ∈ c3wState.readyQueue,
        p.priority < q.priority ∨ (p.priority = q.priority ∧ p.id ≤ q.id)) ∧
      (c3wState.algorithm ≠ "SJF" → c3wState.algorithm ≠ "SRTF" →
        c3wState.algorithm ≠ "Priority" →
        ∀ h2 : c3wState.readyQueue ≠ [], p.id = (c3wState.readyQueue.head h2).id ∧
          p.arrivalTime = (c3wState.readyQueue.head h2).arrivalTime) :=
  dispatch_order_amended c3wState (by decide) (by decide)

/-- C5: under RR, a tick that starts with an occupied CPU slot whose
process has consumed its quantum and still has remaining time preempts it
first: the quantum-expiry block appends it to the back of the ready queue,
clears the slot and resets the quantum counter, and only afterwards does
the arrival block append the processes arriving this tick, so the
preempted process sits ahead of every same-tick arrival in the queue the
dispatch block consumes. -/
theorem rr_preempt_before_same_tick_arrivals (s : Scheduler) (p : Process)
    (halg : s.algorithm = "RR") (hcpu : s.cpu = [p])
    (hq : s.currentQuantumUsed + 1 ≥ s.timeQuantum) (hrem : p.remainingTime > 0) :
    ((s.rrExpiryPhase).1.readyQueue = s.readyQueue ++ [p] ∧
      (s.rrExpiryPhase).1.cpu = [] ∧
      (s.rrExpiryPhase).1.currentQuantumUsed = 0) ∧
    (s.rrExpiryPhase).1.checkArrivals.readyQueue
      = s.readyQueue ++ [p] ++ s.jobPool.filter (arrivedB s.currentTime) := by
  have hcond : s.currentQuantumUsed + 1 ≥ s.timeQuantum ∧ p.remainingTime > 0 :=
    ⟨hq, hrem⟩
  simp [Scheduler.rrExpiryPhase, Scheduler.preemptCPU, Scheduler.checkArrivals,
    halg, hcpu, hcond.1, hcond.2]

/-- C5 witness: the quantum-expiry ordering evaluated on the RR state at
time 2 with one same-tick arrival. -/
theorem rr_preempt_before_same_tick_arrivals_witness :
    ((c5State.rrExpiryPhase).1.readyQueue = c5State.readyQueue ++ [c5Proc] ∧
      (c5State.rrExpiryPhase).1.cpu = [] ∧
      (c5State.rrExpiryPhase).1.currentQuantumUsed = 0) ∧
    (c5State.rrExpiryPhase).1.checkArrivals.readyQueue
      = c5State.readyQueue ++ [c5Proc]
          ++ c5State.jobPool.filter (arrivedB c5State.currentTime) :=
  rr_preempt_before_same_tick_arrivals c5State c5Proc (by decide) (by decide)
    (by decide) (by decide)

/-- One aging step never raises a nonnegative priority and keeps it
nonnegative. -/
theorem agingStep_priority_bounds (t : Int) (p : Process) (h : 0 ≤ p.priority) :
    (agingStep t p).priority ≤ p.priority ∧ 0 ≤ (agingStep t p).priority := by
  unfold agingStep
  split <;> simp <;> omega

/-- One aging step keeps the age counter in the interval from 0 up to but
excluding the threshold. -/
theorem agingStep_counter_bounds (t : Int) (p : Process) (ht : 1 ≤ t)
    (h : 0 ≤ p.ageCounter) :
    0 ≤ (agingStep t p).ageCounter ∧ (agingStep t p).ageCounter < t := by
  unfold agingStep
  split
  · simpa using ht
  · rename_i hcond
    simp only [not_le] at hcond
    simpa using ⟨by omega, hcond⟩

/-- Iterated aging keeps the age counter in range and the priority
nonnegative and non-increasing. -/
theorem aging_iter_bounds (t : Int) (ht : 1 ≤ t) :
    ∀ (n : Nat) (p : Process), 0 ≤ p.ageCounter → p.ageCounter < t →
      0 ≤ p.priority →
      (0 ≤ ((agingStep t)^[n] p).ageCounter ∧
        ((agingStep t)^[n] p).ageCounter < t) ∧
      ((agingStep t)^[n] p).priority ≤ p.priority ∧
      0 ≤ ((agingStep t)^[n] p).priority := by
  intro n
  induction n with
  | zero =>
    intro p h1 h2 h3
    simp only [Function.iterate_zero, id_eq]
    exact ⟨⟨h1, h2⟩, le_refl _, h3⟩
  | succ n ih =>
    intro p h1 h2 h3
    rw [Function.iterate_succ_apply]
    obtain ⟨k1, k2⟩ := agingStep_priority_bounds t p h3
    obtain ⟨c1, c2⟩ := agingStep_counter_bounds t p ht h1
    obtain ⟨⟨a0, a1⟩, a2, a3⟩ := ih (agingStep t p) c1 c2 k2
    exact ⟨⟨a0, a1⟩, le_trans a2 k1, a3⟩

/-- Within any window of steps long enough for the counter to reach the
threshold, at least one priority boost happens, so the priority drops below
its starting value unless it is already at the floor. -/
theorem aging_block (t : Int) (ht : 1 ≤ t) :
    ∀ (j : Nat) (p : Process), 0 ≤ p.ageCounter → p.ageCounter < t →
      0 ≤ p.priority → t ≤ p.ageCounter + (j : Int) →
      ((agingStep t)^[j] p).priority ≤ max (p.priority - 1) 0 := by
  intro j
  induction j with
  | zero =>
    intro p h1 h2 h3 h4
    exfalso
    push_cast at h4
    omega
  | succ j ih =>
    intro p h1 h2 h3 h4
    rw [Function.iterate_succ_apply]
    by_cases hb : p.ageCounter + 1 ≥ t
    · have hstep : (agingStep t p).priority = max (p.priority - 1) 0 := by
        unfold agingStep
        rw [if_pos hb]
      have hc := agingStep_counter_bounds t p ht h1
      have hp : 0 ≤ (agingStep t p).priority := by
        rw [hstep]; omega
      have hfin := (aging_iter_bounds t ht j (agingStep t p) hc.1 hc.2 hp).2.1
      rw [hstep] at hfin
      exact hfin
    · have hstep : agingStep t p = { p with ageCounter := p.ageCounter + 1 } := by
        unfold agingStep
        rw [if_neg hb]
      rw [hstep]
      have := ih { p with ageCounter := p.ageCounter + 1 }
        (by simp; omega) (by simp; omega) (by simpa using h3)
        (by push_cast at h4 ⊢; omega)
      simpa using this

/-- Iterating exactly threshold-times-k aging steps reduces a nonnegative
priority by at least k, floored at 0. -/
theorem aging_reduce (t : Int) (ht : 1 ≤ t) :
    ∀ (k : Nat) (p : Process), 0 ≤ p.ageCounter → p.ageCounter < t →
      0 ≤ p.priority →
      ((agingStep t)^[t.toNat * k] p).priority ≤ max (p.priority - (k : Int)) 0 := by
  intro k
  induction k with
  | zero =>
    intro p h1 h2 h3
    simp only [Nat.mul_zero, Function.iterate_zero, id_eq, Nat.cast_zero]
    omega
  | succ k ih =>
    intro p h1 h2 h3
    have hsplit : t.toNat * (k + 1) = t.toNat * k + t.toNat := by ring
    rw [hsplit, Function.iterate_add_apply]
    have hcast : (t.toNat : Int) = t := Int.toNat_of_nonneg (by omega)
    have hblock : ((agingStep t)^[t.toNat] p).priority ≤ max (p.priority - 1) 0 :=
      aging_block t ht t.toNat p h1 h2 h3 (by omega)
    have hb := aging_iter_bounds t ht t.toNat p h1 h2 h3
    have hrec := ih ((agingStep t)^[t.toNat] p) hb.1.1 hb.1.2 hb.2.2
    push_cast
    push_cast at hrec
    omega

/-- Iterating at least threshold-times-k aging steps reduces a nonnegative
priority by at least k, floored at 0. -/
theorem aging_reduce_ge (t : Int) (ht : 1 ≤ t) (k n : Nat) (p : Process)
    (h1 : 0 ≤ p.ageCounter) (h2 : p.ageCounter < t) (h3 : 0 ≤ p.priority)
    (hn : t.toNat * k ≤ n) :
    ((agingStep t)^[n] p).priority ≤ max (p.priority - (k : Int)) 0 := by
  obtain ⟨m, rfl⟩ : ∃ m, n = m + t.toNat * k := ⟨n - t.toNat * k, by omega⟩
  rw [Function.iterate_add_apply]
  have hred := aging_reduce t ht k p h1 h2 h3
  have hb := aging_iter_bounds t ht (t.toNat * k) p h1 h2 h3
  have hfin := (aging_iter_bounds t ht m ((agingStep t)^[t.toNat * k] p)
    hb.1.1 hb.1.2 hb.2.2).2.1
  omega

/-- C2: with aging enabled and a non-empty ready pool, the aging phase maps
agingStep over every ready process; one step increments the age counter,
and a counter reaching the threshold resets to 0 with the priority
decremented by one, floored at 0; consequently a process undergoing at
least threshold-times-k consecutive aging steps has its priority reduced by
at least k, bounded below by 0. -/
theorem aging_increment_and_bounded_starvation (s : Scheduler)
    (hen : s.agingEnabled = true) (hne : s.readyQueue ≠ []) :
    (s.applyAging).readyQueue = s.readyQueue.map (agingStep s.agingThreshold) ∧
    (∀ p : Process,
      (p.ageCounter + 1 ≥ s.agingThreshold →
        (agingStep s.agingThreshold p).ageCounter = 0 ∧
        (agingStep s.agingThreshold p).priority = max (p.priority - 1) 0) ∧
      (p.ageCounter + 1 < s.agingThreshold →
        (agingStep s.agingThreshold p).ageCounter = p.ageCounter + 1 ∧
        (agingStep s.agingThreshold p).priority = p.priority)) ∧
    (∀ (k n : Nat) (p : Process), 1 ≤ s.agingThreshold →
      0 ≤ p.ageCounter → p.ageCounter < s.agingThreshold → 0 ≤ p.priority →
      s.agingThreshold.toNat * k ≤ n →
      ((agingStep s.agingThreshold)^[n] p).priority
        ≤ max (p.priority - (k : Int)) 0) := by
  refine ⟨?_, ?_, ?_⟩
  · simp [Scheduler.applyAging, hen, hne]
  · intro p
    constructor
    · intro h
      unfold agingStep
      rw [if_pos h]
      exact ⟨rfl, rfl⟩
    · intro h
      unfold agingStep
      rw [if_neg (by omega)]
      exact ⟨rfl, rfl⟩
  · intro k n p ht h1 h2 h3 hn
    exact aging_reduce_ge s.agingThreshold ht k n p h1 h2 h3 hn

/-- C2 witness: the aging statement evaluated on the aging-enabled state
with one ready process. -/
theorem aging_increment_and_bounded_starvation_witness :
    (c2State.applyAging).readyQueue
      = c2State.readyQueue.map (agingStep c2State.agingThreshold) ∧
    (∀ p : Process,
      (p.ageCounter + 1 ≥ c2State.agingThreshold →
        (agingStep c2State.agingThreshold p).ageCounter = 0 ∧
        (agingStep c2State.agingThreshold p).priority = max (p.priority - 1) 0) ∧
      (p.ageCounter + 1 < c2State.agingThreshold →
        (agingStep c2State.agingThreshold p).ageCounter = p.ageCounter + 1 ∧
        (agingStep c2State.agingThreshold p).priority = p.priority)) ∧
    (∀ (k n : Nat) (p : Process), 1 ≤ c2State.agingThreshold →
      0 ≤ p.ageCounter → p.ageCounter < c2State.agingThreshold → 0 ≤ p.priority →
      c2State.agingThreshold.toNat * k ≤ n →
      ((agingStep c2State.agingThreshold)^[n] p).priority
        ≤ max (p.priority - (k : Int)) 0) :=
  aging_increment_and_bounded_starvation c2State (by decide) (by decide)

/-- With any quantum at most 1, the quantum-expiry block behaves exactly as
with quantum 1, because the counter is incremented before the comparison
and is nonnegative. -/
theorem rrExpiry_quantum_le_one (s : Scheduler) (q : Int) (hq : q ≤ 1)
    (hc : 0 ≤ s.currentQuantumUsed) :
    (s.setTimeQuantum q).rrExpiryPhase
      = (((s.setTimeQuantum 1).rrExpiryPhase).1.setTimeQuantum q,
          ((s.setTimeQuantum 1).rrExpiryPhase).2) := by
  rcases s with ⟨alg, ae, tq, ath, ct, jp, rq, fp, cpu, cqu⟩
  dsimp only at hc
  unfold Scheduler.rrExpiryPhase Scheduler.setTimeQuantum Scheduler.preemptCPU
  by_cases halg : alg = "RR"
  · subst halg
    rcases cpu with _ | ⟨p, rest⟩
    · simp
    · have hc1 : cqu + 1 ≥ q := by omega
      have hc2 : cqu + 1 ≥ (1 : Int) := by omega
      by_cases hrem : p.remainingTime > 0
      · simp [hc1, hc2, hrem]
      · simp [hrem]
  · simp [halg]

/-- The arrival block never reads the time quantum. -/
theorem checkArrivals_setTimeQuantum (s : Scheduler) (q : Int) :
    (s.setTimeQuantum q).checkArrivals = (s.checkArrivals).setTimeQuantum q := rfl

/-- The SRTF preemption block never reads the time quantum. -/
theorem srtfPreempt_setTimeQuantum (s : Scheduler) (q : Int) :
    (s.setTimeQuantum q).srtfPreemptPhase
      = (((s.srtfPreemptPhase).1.setTimeQuantum q, (s.srtfPreemptPhase).2)) := by
  rcases s with ⟨alg, ae, tq, ath, ct, jp, rq, fp, cpu, cqu⟩
  unfold Scheduler.srtfPreemptPhase Scheduler.setTimeQuantum Scheduler.preemptCPU
  by_cases halg : alg = "SRTF"
  · subst halg
    rcases cpu with _ | ⟨p, rest⟩
    · simp
    · rcases rq with _ | ⟨r0, rs⟩
      · simp
      · by_cases hm : (minElemBy cmpSRTF r0 rs).remainingTime < p.remainingTime
        · simp [hm]
        · simp [hm]
  · simp [halg]

/-- The dispatch block never reads the time quantum. -/
theorem dispatch_setTimeQuantum (s : Scheduler) (q : Int) :
    (s.setTimeQuantum q).dispatchPhase
      = (((s.dispatchPhase).1.setTimeQuantum q, (s.dispatchPhase).2)) := by
  rcases s with ⟨alg, ae, tq, ath, ct, jp, rq, fp, cpu, cqu⟩
  rcases cpu with _ | ⟨c, cs⟩
  · rcases rq with _ | ⟨r0, rs⟩
    · rfl
    · unfold Scheduler.dispatchPhase Scheduler.setTimeQuantum
      dsimp only
      have hsort : Scheduler.sortReady ⟨alg, ae, q, ath, ct, jp, r0 :: rs, fp, [], cqu⟩
          = Scheduler.sortReady ⟨alg, ae, tq, ath, ct, jp, r0 :: rs, fp, [], cqu⟩ := rfl
      rw [hsort]
      rcases hs : Scheduler.sortReady ⟨alg, ae, tq, ath, ct, jp, r0 :: rs, fp, [], cqu⟩
        with _ | ⟨p, rest⟩
      · rfl
      · by_cases hst : p.startTime = -1 <;> simp [hst]
  · rfl

/-- The execution block never reads the time quantum. -/
theorem execution_setTimeQuantum (s : Scheduler) (q : Int) :
    (s.setTimeQuantum q).executionPhase
      = (((s.executionPhase).1.setTimeQuantum q, (s.executionPhase).2)) := by
  rcases s with ⟨alg, ae, tq, ath, ct, jp, rq, fp, cpu, cqu⟩
  rcases cpu with _ | ⟨p, rest⟩
  · rfl
  · unfold Scheduler.executionPhase Scheduler.setTimeQuantum
    dsimp only
    by_cases hfin : p.remainingTime - 1 ≤ 0 <;> simp [hfin]

/-- C9 (amended): setTimeQuantum stores the supplied value verbatim, with
no rejection or clamping; nevertheless a non-positive quantum cannot cause
an infinite preemption loop, because the quantum counter is reset at
dispatch and compared only after being incremented at the start of the next
tick, so any quantum at most 1 makes tick behave exactly as quantum 1 does
(the resulting states agree except for the stored timeQuantum value, and
the traces agree). -/
theorem quantum_amended (s : Scheduler) (q : Int) (hq : q ≤ 1)
    (hc : 0 ≤ s.currentQuantumUsed) :
    (s.setTimeQuantum q).timeQuantum = q ∧
    (s.setTimeQuantum q).tick
      = (((s.setTimeQuantum 1).tick).1.setTimeQuantum q,
          ((s.setTimeQuantum 1).tick).2) := by
  refine ⟨rfl, ?_⟩
  have h1 := rrExpiry_quantum_le_one s q hq hc
  simp only [Scheduler.tick, h1, checkArrivals_setTimeQuantum,
    srtfPreempt_setTimeQuantum, dispatch_setTimeQuantum,
    execution_setTimeQuantum]
  simp only [Scheduler.setTimeQuantum]

/-- C9 witness: the amended quantum statement evaluated at quantum 0 on the
RR state. -/
theorem quantum_amended_witness :
    (c5State.setTimeQuantum 0).timeQuantum = 0 ∧
    (c5State.setTimeQuantum 0).tick
      = (((c5State.setTimeQuantum 1).tick).1.setTimeQuantum 0,
          ((c5State.setTimeQuantum 1).tick).2) :=
  quantum_amended c5State 0 (by decide) (by decide)

/-- The quantum-expiry block conserves ids and the CPU-slot bound. -/
theorem conserve_rrExpiry (s : Scheduler) (h : s.cpu.length ≤ 1) :
    (s.rrExpiryPhase).1.idMultiset = s.idMultiset ∧
    (s.rrExpiryPhase).1.cpu.length ≤ 1 := by
  by_cases halg : s.algorithm = "RR"
  · rcases hc : s.cpu with _ | ⟨p, rest⟩
    · simp [Scheduler.rrExpiryPhase, halg, hc]
    · have hrest : rest = [] := by
        rw [hc] at h
        simpa using h
      subst hrest
      by_cases hcond : s.currentQuantumUsed + 1 ≥ s.timeQuantum ∧ p.remainingTime > 0
      · have hres : (s.rrExpiryPhase).1
            = { s with
                readyQueue := s.readyQueue ++ [p]
                cpu := []
                currentQuantumUsed := 0 } := by
          simp [Scheduler.rrExpiryPhase, halg, hc, Scheduler.preemptCPU,
            hcond.1, hcond.2]
        rw [hres]
        constructor
        · unfold Scheduler.idMultiset Scheduler.allProcs
          dsimp only
          rw [hc]
          simp only [List.map_append, List.map_nil, Multiset.coe_nil,
            ← Multiset.coe_add]
          abel
        · simp
      · have hres : (s.rrExpiryPhase).1
            = { s with currentQuantumUsed := s.currentQuantumUsed + 1 } := by
          simp [Scheduler.rrExpiryPhase, halg, hc, hcond]
        rw [hres]
        refine ⟨rfl, ?_⟩
        dsimp only
        rw [hc]
        simp
  · simp only [Scheduler.rrExpiryPhase, halg, if_neg halg]
    exact ⟨rfl, h⟩

/-- The arrival block conserves ids and leaves the CPU slot unchanged. -/
theorem conserve_checkArrivals (s : Scheduler) :
    (s.checkArrivals).idMultiset = s.idMultiset ∧
    (s.checkArrivals).cpu = s.cpu := by
  constructor
  · unfold Scheduler.idMultiset Scheduler.allProcs Scheduler.checkArrivals
    dsimp only
    have hfil : (↑((s.jobPool.filter
          (fun p => !(arrivedB s.currentTime p))).map Process.id) : Multiset Int)
        + ↑((s.jobPool.filter (arrivedB s.currentTime)).map Process.id)
        = ↑(s.jobPool.map Process.id) := by
      rw [Multiset.coe_add, Multiset.coe_eq_coe]
      have hp := List.filter_append_perm (arrivedB s.currentTime) s.jobPool
      have hswap : (s.jobPool.filter (fun p => !(arrivedB s.currentTime p))
            ++ s.jobPool.filter (arrivedB s.currentTime)).Perm s.jobPool :=
        List.Perm.trans (List.perm_append_comm) hp
      have hmap := hswap.map Process.id
      simpa using hmap
    simp only [List.map_append, ← Multiset.coe_add]
    rw [← hfil]
    abel
  · rfl

/-- The SRTF preemption block conserves ids and the CPU-slot bound. -/
theorem conserve_srtf (s : Scheduler) (h : s.cpu.length ≤ 1) :
    (s.srtfPreemptPhase).1.idMultiset = s.idMultiset ∧
    (s.srtfPreemptPhase).1.cpu.length ≤ 1 := by
  by_cases halg : s.algorithm = "SRTF"
  · rcases hc : s.cpu with _ | ⟨p, rest⟩
    · simp [Scheduler.srtfPreemptPhase, halg, hc]
    · have hrest : rest = [] := by
        rw [hc] at h
        simpa using h
      subst hrest
      rcases hr : s.readyQueue with _ | ⟨q0, qs⟩
      · have hres : (s.srtfPreemptPhase).1 = s := by
          simp [Scheduler.srtfPreemptPhase, halg, hc, hr]
        rw [hres]
        exact ⟨rfl, h⟩
      · by_cases hcond : (minElemBy cmpSRTF q0 qs).remainingTime < p.remainingTime
        · have hres : (s.srtfPreemptPhase).1
              = { s with
                  readyQueue := s.readyQueue ++ [p]
                  cpu := [] } := by
            simp [Scheduler.srtfPreemptPhase, halg, hc, hr,
              Scheduler.preemptCPU, hcond]
          rw [hres]
          constructor
          · unfold Scheduler.idMultiset Scheduler.allProcs
            dsimp only
            rw [hc]
            simp only [List.map_append, List.map_nil, Multiset.coe_nil,
              ← Multiset.coe_add]
            abel
          · simp
        · have hres : (s.srtfPreemptPhase).1 = s := by
            simp [Scheduler.srtfPreemptPhase, halg, hc, hr, hcond]
          rw [hres]
          exact ⟨rfl, h⟩
  · simp only [Scheduler.srtfPreemptPhase, halg, if_neg halg]
    exact ⟨rfl, h⟩

/-- The dispatch block conserves ids and the CPU-slot bound. -/
theorem conserve_dispatch (s : Scheduler) (h : s.cpu.length ≤ 1) :
    (s.dispatchPhase).1.idMultiset = s.idMultiset ∧
    (s.dispatchPhase).1.cpu.length ≤ 1 := by
  rcases hc : s.cpu with _ | ⟨c, cs⟩
  · rcases hr : s.readyQueue with _ | ⟨q0, qs⟩
    · have hres : (s.dispatchPhase).1 = s := by
        simp [Scheduler.dispatchPhase, hc, hr]
      rw [hres]
      exact ⟨rfl, by rw [hc]; simp⟩
    · rcases hs : s.sortReady with _ | ⟨p, rest⟩
      · have hperm := sortReady_perm s
        rw [hs, hr] at hperm
        exact absurd hperm.length_eq (by simp)
      · have hres : (s.dispatchPhase).1
            = { s with
                cpu := [if p.startTime = -1 then { p with startTime := s.currentTime }
                  else p]
                readyQueue := rest
                currentQuantumUsed := 0 } := by
          simp [Scheduler.dispatchPhase, hc, hr, hs]
        have hid : (if p.startTime = -1 then { p with startTime := s.currentTime }
            else p).id = p.id := by
          split <;> rfl
        rw [hres]
        constructor
        · unfold Scheduler.idMultiset Scheduler.allProcs
          dsimp only
          rw [hc, Multiset.coe_eq_coe]
          simp only [List.map_append, List.map_cons, List.map_nil, hid,
            List.append_nil, List.append_assoc, List.singleton_append]
          refine List.Perm.append_left _ ?_
          have hready : (p :: rest).Perm s.readyQueue := hs ▸ sortReady_perm s
          have hmap : ((p :: rest).map Process.id).Perm
              (s.readyQueue.map Process.id) := hready.map _
          have hmid : (rest.map Process.id
                ++ p.id :: s.finishedProcesses.map Process.id).Perm
              ((p :: rest).map Process.id ++ s.finishedProcesses.map Process.id) :=
            List.perm_middle
          exact hmid.trans (hmap.append_right _)
        · simp
  · have hres : (s.dispatchPhase).1 = s := by
      simp [Scheduler.dispatchPhase, hc]
    rw [hres]
    exact ⟨rfl, h⟩

/-- Composing the id projection with the waiting-time bump gives the id
projection back. -/
theorem comp_bump_id :
    (Process.id ∘ fun q : Process => { q with waitingTime := q.waitingTime + 1 })
      = Process.id := rfl

/-- The ready-queue waiting-time bump leaves ids unchanged. -/
theorem map_bump_ids (l : List Process) :
    (l.map (fun q => { q with waitingTime := q.waitingTime + 1 })).map Process.id
      = l.map Process.id := by
  simp [List.map_map]

/-- The execution block conserves ids and the CPU-slot bound. -/
theorem conserve_execution (s : Scheduler) (h : s.cpu.length ≤ 1) :
    (s.executionPhase).1.idMultiset = s.idMultiset ∧
    (s.executionPhase).1.cpu.length ≤ 1 := by
  rcases hc : s.cpu with _ | ⟨p, rest⟩
  · have hres : (s.executionPhase).1 = s := by
      simp [Scheduler.executionPhase, hc]
    rw [hres]
    exact ⟨rfl, by rw [hc]; simp⟩
  · have hrest : rest = [] := by
      rw [hc] at h
      simpa using h
    subst hrest
    by_cases hfin : p.remainingTime - 1 ≤ 0
    · have hres : (s.executionPhase).1
          = { s with
              cpu := []
              readyQueue := s.readyQueue.map
                (fun q => { q with waitingTime := q.waitingTime + 1 })
              finishedProcesses := s.finishedProcesses
                ++ [{ p with
                      remainingTime := p.remainingTime - 1
                      completionTime := s.currentTime + 1
                      turnaroundTime := s.currentTime + 1 - p.arrivalTime }]
              currentQuantumUsed := 0 } := by
        simp [Scheduler.executionPhase, hc, hfin]
      rw [hres]
      constructor
      · unfold Scheduler.idMultiset Scheduler.allProcs
        dsimp only
        rw [hc, Multiset.coe_eq_coe]
        simp only [List.map_append, List.map_cons, List.map_nil, map_bump_ids,
          List.append_nil, List.append_assoc, List.singleton_append]
        refine List.Perm.append_left _ ?_
        refine List.Perm.append_left _ ?_
        exact List.perm_append_singleton _ _
      · simp
    · have hres : (s.executionPhase).1
          = { s with
              cpu := [{ p with remainingTime := p.remainingTime - 1 }]
              readyQueue := s.readyQueue.map
                (fun q => { q with waitingTime := q.waitingTime + 1 }) } := by
        simp [Scheduler.executionPhase, hc, hfin]
      rw [hres]
      constructor
      · unfold Scheduler.idMultiset Scheduler.allProcs
        dsimp only
        rw [hc, Multiset.coe_eq_coe]
        simp [List.map_map, comp_bump_id]
      · simp

/-- One tick conserves ids and the CPU-slot bound. -/
theorem conserve_tick (s : Scheduler) (h : s.cpu.length ≤ 1) :
    (s.tick).1.idMultiset = s.idMultiset ∧ (s.tick).1.cpu.length ≤ 1 := by
  have h1 := conserve_rrExpiry s h
  have h2 := conserve_checkArrivals (s.rrExpiryPhase).1
  have h2len : ((s.rrExpiryPhase).1.checkArrivals).cpu.length ≤ 1 := by
    rw [h2.2]
    exact h1.2
  have h3 := conserve_srtf ((s.rrExpiryPhase).1.checkArrivals) h2len
  have h4 := conserve_dispatch
    ((((s.rrExpiryPhase).1.checkArrivals).srtfPreemptPhase).1) h3.2
  have h5 := conserve_execution
    (((((s.rrExpiryPhase).1.checkArrivals).srtfPreemptPhase).1.dispatchPhase).1) h4.2
  constructor
  · exact h5.1.trans (h4.1.trans (h3.1.trans (h2.1.trans h1.1)))
  · exact h5.2

/-- C6: along every reachable run, the CPU slot holds at most one process,
the four pool sizes add up to the number of submissions, and the multiset
of ids across the four pools is exactly the multiset of submitted ids, so
every submitted process sits in exactly one pool. -/
theorem pool_conservation (subs : List Submission) (s : Scheduler)
    (h : Reachable subs s) :
    s.cpu.length ≤ 1 ∧
    s.jobPool.length + s.readyQueue.length + s.cpu.length
      + s.finishedProcesses.length = subs.length ∧
    s.idMultiset = ↑(subs.map Submission.id) := by
  induction h with
  | init => exact ⟨by decide, by decide, rfl⟩
  | add subs s sub hr ih =>
    obtain ⟨ih1, ih2, ih3⟩ := ih
    refine ⟨ih1, ?_, ?_⟩
    · simp only [Scheduler.addProcess, List.length_append, List.length_cons,
        List.length_nil]
      omega
    · have hstep : (s.addProcess sub.id sub.name sub.arrivalTime sub.burstTime
          sub.priority).idMultiset = s.idMultiset + ↑[sub.id] := by
        unfold Scheduler.idMultiset Scheduler.allProcs Scheduler.addProcess
        dsimp only
        simp only [List.map_append, List.map_cons, List.map_nil,
          ← Multiset.coe_add]
        abel
      rw [hstep, ih3]
      simp only [List.map_append, List.map_cons, List.map_nil,
        ← Multiset.coe_add]
  | step subs s hr ih =>
    obtain ⟨ih1, ih2, ih3⟩ := ih
    have ht := conserve_tick s ih1
    refine ⟨ht.2, ?_, ht.1.trans ih3⟩
    have hcard := congrArg Multiset.card (ht.1.trans ih3)
    simp [Scheduler.idMultiset, Scheduler.allProcs] at hcard
    omega
  | setAlg subs s a hr ih => exact ih
  | setQ subs s q hr ih => exact ih
  | setAg subs s b hr ih => exact ih
  | setAgT subs s th hr ih => exact ih

/-- C6 witness: conservation evaluated after one valid submission and two
ticks. -/
theorem pool_conservation_witness :
    c4State.cpu.length ≤ 1 ∧
    c4State.jobPool.length + c4State.readyQueue.length + c4State.cpu.length
      + c4State.finishedProcesses.length = c4Subs.length ∧
    c4State.idMultiset = ↑(c4Subs.map Submission.id) :=
  pool_conservation c4Subs c4State
    (Reachable.step _ _ (Reachable.step _ _
      (Reachable.add [] Scheduler.init
        { id := 1, name := "P1", arrivalTime := 0, burstTime := 2, priority := 0 }
        Reachable.init)))

/-- PoolInv ignores startTime. -/
theorem poolInv_startTime (T : Int) (p : Process) (x : Int) (h : PoolInv T p) :
    PoolInv T { p with startTime := x } := by
  simpa [PoolInv] using h

/-- Invariant transfer across the quantum-expiry block. -/
theorem invV_rrExpiry (s : Scheduler) (h : InvV s) :
    (s.rrExpiryPhase).1.cpu.length ≤ 1 ∧
    (s.rrExpiryPhase).1.jobPool = s.jobPool ∧
    (s.rrExpiryPhase).1.currentTime = s.currentTime ∧
    (s.rrExpiryPhase).1.finishedProcesses = s.finishedProcesses ∧
    (∀ p ∈ (s.rrExpiryPhase).1.readyQueue, PoolInv s.currentTime p) ∧
    (∀ p ∈ (s.rrExpiryPhase).1.cpu, PoolInv s.currentTime p) := by
  obtain ⟨hlen, hjob, hready, hcpu, hfin⟩ := h
  by_cases halg : s.algorithm = "RR"
  · rcases hc : s.cpu with _ | ⟨p, rest⟩
    · have hres : (s.rrExpiryPhase).1 = s := by
        simp [Scheduler.rrExpiryPhase, halg, hc]
      rw [hres]
      exact ⟨hlen, rfl, rfl, rfl, hready, hcpu⟩
    · have hrest : rest = [] := by
        rw [hc] at hlen
        simpa using hlen
      subst hrest
      by_cases hcond : s.currentQuantumUsed + 1 ≥ s.timeQuantum ∧ p.remainingTime > 0
      · have hres : (s.rrExpiryPhase).1
            = { s with
                readyQueue := s.readyQueue ++ [p]
                cpu := []
                currentQuantumUsed := 0 } := by
          simp [Scheduler.rrExpiryPhase, halg, hc, Scheduler.preemptCPU,
            hcond.1, hcond.2]
        rw [hres]
        refine ⟨by simp, rfl, rfl, rfl, ?_, by simp⟩
        intro q hq
        rcases List.mem_append.1 hq with hq1 | hq1
        · exact hready q hq1
        · have : q = p := by simpa using hq1
          subst this
          exact hcpu q (by rw [hc]; simp)
      · have hres : (s.rrExpiryPhase).1
            = { s with currentQuantumUsed := s.currentQuantumUsed + 1 } := by
          simp [Scheduler.rrExpiryPhase, halg, hc, hcond]
        rw [hres]
        exact ⟨hlen, rfl, rfl, rfl, hready, hcpu⟩
  · have hres : (s.rrExpiryPhase).1 = s := by
      simp [Scheduler.rrExpiryPhase, halg]
    rw [hres]
    exact ⟨hlen, rfl, rfl, rfl, hready, hcpu⟩

/-- Invariant transfer across the arrival block: remaining job-pool members
have strictly later arrivals, and newly ready members satisfy the pool
bookkeeping at the current time. -/
theorem invV_arrivals (s : Scheduler)
    (hjob : ∀ p ∈ s.jobPool, JobInv s.currentTime p)
    (hready : ∀ p ∈ s.readyQueue, PoolInv s.currentTime p) :
    (∀ p ∈ (s.checkArrivals).jobPool, JobInv (s.currentTime + 1) p) ∧
    (∀ p ∈ (s.checkArrivals).readyQueue, PoolInv s.currentTime p) ∧
    (s.checkArrivals).cpu = s.cpu ∧
    (s.checkArrivals).currentTime = s.currentTime ∧
    (s.checkArrivals).finishedProcesses = s.finishedProcesses := by
  refine ⟨?_, ?_, rfl, rfl, rfl⟩
  · intro p hp
    have hp2 := List.mem_filter.1 hp
    have hj := hjob p hp2.1
    have hlate : ¬(arrivedB s.currentTime p = true) := by
      simpa using hp2.2
    unfold arrivedB at hlate
    simp only [decide_eq_true_eq] at hlate
    obtain ⟨j1, j2, j3, j4⟩ := hj
    exact ⟨by omega, j2, j3, j4⟩
  · intro p hp
    rcases List.mem_append.1 hp with hp1 | hp1
    · exact hready p hp1
    · have hp2 := List.mem_filter.1 hp1
      have hj := hjob p hp2.1
      have harr : arrivedB s.currentTime p = true := hp2.2
      unfold arrivedB at harr
      simp only [decide_eq_true_eq] at harr
      obtain ⟨j1, j2, j3, j4⟩ := hj
      constructor
      · omega
      · rw [j2, j3]
        omega

/-- Invariant transfer across the SRTF preemption block. -/
theorem invV_srtf (s : Scheduler) (hlen : s.cpu.length ≤ 1)
    (hready : ∀ p ∈ s.readyQueue, PoolInv s.currentTime p)
    (hcpu : ∀ p ∈ s.cpu, PoolInv s.currentTime p) :
    (s.srtfPreemptPhase).1.cpu.length ≤ 1 ∧
    (s.srtfPreemptPhase).1.jobPool = s.jobPool ∧
    (s.srtfPreemptPhase).1.currentTime = s.currentTime ∧
    (s.srtfPreemptPhase).1.finishedProcesses = s.finishedProcesses ∧
    (∀ p ∈ (s.srtfPreemptPhase).1.readyQueue, PoolInv s.currentTime p) ∧
    (∀ p ∈ (s.srtfPreemptPhase).1.cpu, PoolInv s.currentTime p) := by
  by_cases halg : s.algorithm = "SRTF"
  · rcases hc : s.cpu with _ | ⟨p, rest⟩
    · have hres : (s.srtfPreemptPhase).1 = s := by
        simp [Scheduler.srtfPreemptPhase, halg, hc]
      rw [hres]
      exact ⟨hlen, rfl, rfl, rfl, hready, hcpu⟩
    · have hrest : rest = [] := by
        rw [hc] at hlen
        simpa using hlen
      subst hrest
      rcases hr : s.readyQueue with _ | ⟨q0, qs⟩
      · have hres : (s.srtfPreemptPhase).1 = s := by
          simp [Scheduler.srtfPreemptPhase, halg, hc, hr]
        rw [hres]
        exact ⟨hlen, rfl, rfl, rfl, hready, hcpu⟩
      · by_cases hcond : (minElemBy cmpSRTF q0 qs).remainingTime < p.remainingTime
        · have hres : (s.srtfPreemptPhase).1
              = { s with
                  readyQueue := s.readyQueue ++ [p]
                  cpu := [] } := by
            simp [Scheduler.srtfPreemptPhase, halg, hc, hr,
              Scheduler.preemptCPU, hcond]
          rw [hres]
          refine ⟨by simp, rfl, rfl, rfl, ?_, by simp⟩
          intro q hq
          rcases List.mem_append.1 hq with hq1 | hq1
          · exact hready q hq1
          · have : q = p := by simpa using hq1
            subst this
            exact hcpu q (by rw [hc]; simp)
        · have hres : (s.srtfPreemptPhase).1 = s := by
            simp [Scheduler.srtfPreemptPhase, halg, hc, hr, hcond]
          rw [hres]
          exact ⟨hlen, rfl, rfl, rfl, hready, hcpu⟩
  · have hres : (s.srtfPreemptPhase).1 = s := by
      simp [Scheduler.srtfPreemptPhase, halg]
    rw [hres]
    exact ⟨hlen, rfl, rfl, rfl, hready, hcpu⟩

/-- Invariant transfer across the dispatch block. -/
theorem invV_dispatch (s : Scheduler) (hlen : s.cpu.length ≤ 1)
    (hready : ∀ p ∈ s.readyQueue, PoolInv s.currentTime p)
    (hcpu : ∀ p ∈ s.cpu, PoolInv s.currentTime p) :
    (s.dispatchPhase).1.cpu.length ≤ 1 ∧
    (s.dispatchPhase).1.jobPool = s.jobPool ∧
    (s.dispatchPhase).1.currentTime = s.currentTime ∧
    (s.dispatchPhase).1.finishedProcesses = s.finishedProcesses ∧
    (∀ p ∈ (s.dispatchPhase).1.readyQueue, PoolInv s.currentTime p) ∧
    (∀ p ∈ (s.dispatchPhase).1.cpu, PoolInv s.currentTime p) := by
  rcases hc : s.cpu with _ | ⟨c, cs⟩
  · rcases hr : s.readyQueue with _ | ⟨q0, qs⟩
    · have hres : (s.dispatchPhase).1 = s := by
        simp [Scheduler.dispatchPhase, hc, hr]
      rw [hres]
      exact ⟨hlen, rfl, rfl, rfl, hready, hcpu⟩
    · rcases hs : s.sortReady with _ | ⟨p, rest⟩
      · have hperm := sortReady_perm s
        rw [hs, hr] at hperm
        exact absurd hperm.length_eq (by simp)
      · have hres : (s.dispatchPhase).1
            = { s with
                cpu := [if p.startTime = -1 then { p with startTime := s.currentTime }
                  else p]
                readyQueue := rest
                currentQuantumUsed := 0 } := by
          simp [Scheduler.dispatchPhase, hc, hr, hs]
        have hready2 : ∀ q ∈ p :: rest, PoolInv s.currentTime q := by
          intro q hq
          exact hready q ((hs ▸ sortReady_perm s).mem_iff.1 hq)
        rw [hres]
        refine ⟨by simp, rfl, rfl, rfl, ?_, ?_⟩
        · intro q hq
          exact hready2 q (List.mem_cons_of_mem _ hq)
        · intro q hq
          have hq2 : q = if p.startTime = -1 then { p with startTime := s.currentTime }
              else p := by simpa using hq
          subst hq2
          have hp := hready2 p (List.mem_cons_self _ _)
          split
          · exact poolInv_startTime _ _ _ hp
          · exact hp
  · have hres : (s.dispatchPhase).1 = s := by
      simp [Scheduler.dispatchPhase, hc]
    rw [hres]
    exact ⟨hlen, rfl, rfl, rfl, hready, hcpu⟩

/-- Invariant transfer across the execution block: bookkeeping advances
from time T to T + 1, finished processes satisfy both timing identities,
and any newly finished process was stamped completionTime = T + 1. -/
theorem invV_execution (s : Scheduler) (hlen : s.cpu.length ≤ 1)
    (hwc : s.cpu = [] → s.readyQueue = [])
    (hready : ∀ p ∈ s.readyQueue, PoolInv s.currentTime p)
    (hcpu : ∀ p ∈ s.cpu, PoolInv s.currentTime p)
    (hfin : ∀ p ∈ s.finishedProcesses, FinInv p) :
    (s.executionPhase).1.cpu.length ≤ 1 ∧
    (s.executionPhase).1.jobPool = s.jobPool ∧
    (s.executionPhase).1.currentTime = s.currentTime ∧
    (∀ p ∈ (s.executionPhase).1.readyQueue, PoolInv (s.currentTime + 1) p) ∧
    (∀ p ∈ (s.executionPhase).1.cpu, PoolInv (s.currentTime + 1) p) ∧
    (∀ p ∈ (s.executionPhase).1.finishedProcesses, FinInv p) ∧
    (∀ q ∈ (s.executionPhase).1.finishedProcesses,
      q ∈ s.finishedProcesses ∨ q.completionTime = s.currentTime + 1) := by
  rcases hc : s.cpu with _ | ⟨p, rest⟩
  · have hres : (s.executionPhase).1 = s := by
      simp [Scheduler.executionPhase, hc]
    have hre : s.readyQueue = [] := hwc hc
    rw [hres]
    refine ⟨by rw [hc]; simp, rfl, rfl, ?_, ?_, hfin, fun q hq => Or.inl hq⟩
    · rw [hre]
      intro q hq
      exact absurd hq (List.not_mem_nil q)
    · rw [hc]
      intro q hq
      exact absurd hq (List.not_mem_nil q)
  · have hrest : rest = [] := by
      rw [hc] at hlen
      simpa using hlen
    subst hrest
    have hp := hcpu p (by rw [hc]; simp)
    obtain ⟨hp1, hp2⟩ := hp
    have hreadyBump : ∀ q ∈ s.readyQueue.map
        (fun q => { q with waitingTime := q.waitingTime + 1 }),
        PoolInv (s.currentTime + 1) q := by
      intro q hq
      obtain ⟨q0, hq0, rfl⟩ := List.mem_map.1 hq
      obtain ⟨hq1, hq2⟩ := hready q0 hq0
      constructor
      · simpa using hq1
      · simp only [PoolInv]
        omega
    by_cases hfin0 : p.remainingTime - 1 ≤ 0
    · have hres : (s.executionPhase).1
          = { s with
              cpu := []
              readyQueue := s.readyQueue.map
                (fun q => { q with waitingTime := q.waitingTime + 1 })
              finishedProcesses := s.finishedProcesses
                ++ [{ p with
                      remainingTime := p.remainingTime - 1
                      completionTime := s.currentTime + 1
                      turnaroundTime := s.currentTime + 1 - p.arrivalTime }]
              currentQuantumUsed := 0 } := by
        simp [Scheduler.executionPhase, hc, hfin0]
      rw [hres]
      refine ⟨by simp, rfl, rfl, hreadyBump, by simp, ?_, ?_⟩
      · intro q hq
        rcases List.mem_append.1 hq with hq1 | hq1
        · exact hfin q hq1
        · have : q = { p with
              remainingTime := p.remainingTime - 1
              completionTime := s.currentTime + 1
              turnaroundTime := s.currentTime + 1 - p.arrivalTime } := by
            simpa using hq1
          subst this
          constructor
          · rfl
          · simp only [FinInv]
            omega
      · intro q hq
        rcases List.mem_append.1 hq with hq1 | hq1
        · exact Or.inl hq1
        · right
          have : q = { p with
              remainingTime := p.remainingTime - 1
              completionTime := s.currentTime + 1
              turnaroundTime := s.currentTime + 1 - p.arrivalTime } := by
            simpa using hq1
          subst this
          rfl
    · have hres : (s.executionPhase).1
          = { s with
              cpu := [{ p with remainingTime := p.remainingTime - 1 }]
              readyQueue := s.readyQueue.map
                (fun q => { q with waitingTime := q.waitingTime + 1 }) } := by
        simp [Scheduler.executionPhase, hc, hfin0]
      rw [hres]
      refine ⟨by simp, rfl, rfl, hreadyBump, ?_, hfin, fun q hq => Or.inl hq⟩
      intro q hq
      have : q = { p with remainingTime := p.remainingTime - 1 } := by
        simpa using hq
      subst this
      constructor
      · simp only []
        omega
      · simp only [PoolInv]
        omega

/-- One tick preserves the bookkeeping invariant, and any process that
newly appears in the finished list was stamped completionTime equal to the
tick start time plus one. -/
theorem invV_tick (s : Scheduler) (h : InvV s) :
    InvV (s.tick).1 ∧
    (∀ q ∈ (s.tick).1.finishedProcesses,
      q ∈ s.finishedProcesses ∨ q.completionTime = s.currentTime + 1) := by
  obtain ⟨hlen, hjob, hready, hcpu, hfin⟩ := h
  obtain ⟨a1, a2, a3, a4, a5, a6⟩ :=
    invV_rrExpiry s ⟨hlen, hjob, hready, hcpu, hfin⟩
  set s1 := (s.rrExpiryPhase).1 with hs1
  have hfin1 : ∀ p ∈ s1.finishedProcesses, FinInv p := by
    rw [a4]
    exact hfin
  have hjob1 : ∀ p ∈ s1.jobPool, JobInv s1.currentTime p := by
    rw [a2, a3]
    exact hjob
  have hready1 : ∀ p ∈ s1.readyQueue, PoolInv s1.currentTime p := by
    rw [a3]
    exact a5
  obtain ⟨b1, b2, b3, b4, b5⟩ := invV_arrivals s1 hjob1 hready1
  set s2 := s1.checkArrivals with hs2
  rw [a3] at b1 b2 b4
  have hlen2 : s2.cpu.length ≤ 1 := by
    rw [b3]
    exact a1
  have hready2 : ∀ p ∈ s2.readyQueue, PoolInv s2.currentTime p := by
    rw [b4]
    exact b2
  have hcpu2 : ∀ p ∈ s2.cpu, PoolInv s2.currentTime p := by
    rw [b4, b3]
    exact a6
  obtain ⟨c1, c2, c3, c4, c5, c6⟩ := invV_srtf s2 hlen2 hready2 hcpu2
  set s3 := (s2.srtfPreemptPhase).1 with hs3
  rw [b4] at c3 c5 c6
  have hready3 : ∀ p ∈ s3.readyQueue, PoolInv s3.currentTime p := by
    rw [c3]
    exact c5
  have hcpu3 : ∀ p ∈ s3.cpu, PoolInv s3.currentTime p := by
    rw [c3]
    exact c6
  obtain ⟨d1, d2, d3, d4, d5, d6⟩ := invV_dispatch s3 c1 hready3 hcpu3
  set s4 := (s3.dispatchPhase).1 with hs4
  rw [c3] at d3 d5 d6
  have hwc4 : s4.cpu = [] → s4.readyQueue = [] := by
    rcases dispatch_cpu_or_ready s3 with hx | hx
    · intro hcc
      exact absurd hcc hx
    · intro _
      exact hx
  have hready4 : ∀ p ∈ s4.readyQueue, PoolInv s4.currentTime p := by
    rw [d3]
    exact d5
  have hcpu4 : ∀ p ∈ s4.cpu, PoolInv s4.currentTime p := by
    rw [d3]
    exact d6
  have hfin4 : ∀ p ∈ s4.finishedProcesses, FinInv p := by
    rw [d4, c4, b5]
    exact hfin1
  obtain ⟨e1, e2, e3, e4, e5, e6, e7⟩ :=
    invV_execution s4 d1 hwc4 hready4 hcpu4 hfin4
  set s5 := (s4.executionPhase).1 with hs5
  rw [d3] at e3 e4 e5 e7
  have hjob5 : ∀ p ∈ s5.jobPool, JobInv (s.currentTime + 1) p := by
    rw [e2, d2, c2]
    exact b1
  have hfineq : s4.finishedProcesses = s.finishedProcesses := by
    rw [d4, c4, b5, a4]
  have hct2 : (s.tick).1.currentTime = s.currentTime + 1 :=
    congrArg (fun x => x + 1) e3
  constructor
  · refine ⟨e1, ?_, ?_, ?_, ?_⟩
    · intro p hp
      rw [hct2]
      exact hjob5 p hp
    · intro p hp
      rw [hct2]
      exact e4 p hp
    · intro p hp
      rw [hct2]
      exact e5 p hp
    · intro p hp
      exact e6 p hp
  · intro q hq
    rcases e7 q hq with h1 | h1
    · rw [hfineq] at h1
      exact Or.inl h1
    · exact Or.inr h1

/-- Every state reachable with valid submissions satisfies the bookkeeping
invariant. -/
theorem reachableV_invV (s : Scheduler) (h : ReachableV s) : InvV s := by
  induction h with
  | init =>
    refine ⟨by decide, ?_, ?_, ?_, ?_⟩ <;> intro p hp <;>
      exact absurd hp (List.not_mem_nil p)
  | add s id name a b pr hr ha hb ih =>
    obtain ⟨hlen, hjob, hready, hcpu, hfin⟩ := ih
    refine ⟨hlen, ?_, hready, hcpu, hfin⟩
    intro p hp
    rcases List.mem_append.1 hp with hp1 | hp1
    · exact hjob p hp1
    · rw [List.mem_singleton] at hp1
      subst hp1
      exact ⟨ha, rfl, rfl, hb⟩
  | step s hr ih => exact (invV_tick s ih).1
  | setAlg s algo hr ih => exact ih
  | setQ s q hr ih => exact ih
  | setAg s b hr ih => exact ih
  | setAgT s th hr ih => exact ih

/-- C4: in every validly reachable state, each finished process satisfies
both timing identities exactly — turnaround equals completion minus
arrival, and turnaround equals the incrementally accumulated waiting time
plus burst — and any process finishing during the next tick is stamped
completionTime = currentTime + 1. -/
theorem timing_identities (s : Scheduler) (h : ReachableV s) :
    (∀ p ∈ s.finishedProcesses,
      p.turnaroundTime = p.completionTime - p.arrivalTime ∧
      p.turnaroundTime = p.waitingTime + p.burstTime) ∧
    (∀ q ∈ (s.tick).1.finishedProcesses,
      q ∈ s.finishedProcesses ∨ q.completionTime = s.currentTime + 1) := by
  have hinv := reachableV_invV s h
  refine ⟨?_, (invV_tick s hinv).2⟩
  intro p hp
  exact hinv.2.2.2.2 p hp

/-- C4 witness: the timing identities evaluated on the state where one
valid submission has run to completion over two ticks. -/
theorem timing_identities_witness :
    (∀ p ∈ c4State.finishedProcesses,
      p.turnaroundTime = p.completionTime - p.arrivalTime ∧
      p.turnaroundTime = p.waitingTime + p.burstTime) ∧
    (∀ q ∈ (c4State.tick).1.finishedProcesses,
      q ∈ c4State.finishedProcesses ∨ q.completionTime = c4State.currentTime + 1) :=
  timing_identities c4State
    (ReachableV.step _ (ReachableV.step _
      (ReachableV.add Scheduler.init 1 "P1" 0 2 0 ReachableV.init
        (by decide) (by decide))))
